import Mathlib

/-!
Shallow embedding of `tomlTools/toml_redactor.py` (class `TOMLRedactor`).

Lines are modelled as `List Char`.  The Python regular expressions used by the
redactor are small enough to be translated into explicit, executable matching
functions; where a regex engine would backtrack (greedy quantifiers in the
key grammar), the translation reproduces the backtracking order with explicit
fallback branches.  Python's `$` anchor, which matches at the end of the
string or just before a trailing newline, is modelled explicitly.  The
embedding is scoped to ASCII text: Python's whitespace, word-character and
digit classes are modelled by their ASCII parts.
-/

/-- Python whitespace (`str.strip`, `str.lstrip`, regex `\s`), ASCII part. -/
def isPySpace (c : Char) : Bool :=
  c = ' ' || c = '\t' || c = '\n' || c = '\r' || c = '\x0b' || c = '\x0c'

/-- A single or double quote character (the class `["']` and the
`strip('"\'')` character set). -/
def isQuoteChar (c : Char) : Bool :=
  c = '"' || c = '\''

/-- Python `s.strip()`: remove leading and trailing whitespace. -/
def pyStrip (l : List Char) : List Char :=
  ((l.dropWhile isPySpace).reverse.dropWhile isPySpace).reverse

/-- Python `s.strip('"\'')`: remove ALL leading and trailing quote
characters (any mix of single and double quotes). -/
def stripQuotes (l : List Char) : List Char :=
  ((l.dropWhile isQuoteChar).reverse.dropWhile isQuoteChar).reverse

/-- Regex word character `\w` (ASCII part), used for the `\b` boundary. -/
def isWordChar (c : Char) : Bool :=
  c.isAlphanum || c = '_'

/-- First character of a key: the class `[a-zA-Z_]`. -/
def isKeyStart (c : Char) : Bool :=
  c.isAlpha || c = '_'

/-- Subsequent key characters: the class `[a-zA-Z0-9_.-]`. -/
def isKeyChar (c : Char) : Bool :=
  c.isAlphanum || c = '_' || c = '.' || c = '-'

/-- The class `[A-Za-z0-9+/]` of the base64 value pattern. -/
def isB64Char (c : Char) : Bool :=
  c.isAlphanum || c = '+' || c = '/'

/-- The class `[A-Za-z0-9_-]` of the JWT and `sk-` value patterns. -/
def isUrlTokChar (c : Char) : Bool :=
  c.isAlphanum || c = '_' || c = '-'

/-- An anchored key pattern from `CONFIG_EXCLUDE_PATTERNS` / `TOKEN_PATTERNS`:
either `^p...` (prefix) or `...p$` (suffix). -/
inductive KeyPat where
  | pre (p : List Char)
  | suf (p : List Char)

/-- `re.search` of an anchored pattern.  `^` matches only at the start of the
string; `$` matches at the end of the string or just before a trailing
newline. -/
def matchKeyPat : KeyPat → List Char → Bool
  | .pre p, l => p.isPrefixOf l
  | .suf p, l => p.isSuffixOf l || (p ++ ['\n']).isSuffixOf l

/-- `TOMLRedactor.CONFIG_EXCLUDE_PATTERNS`, in source order. -/
def CONFIG_EXCLUDE_PATTERNS : List KeyPat :=
  [ .pre "allow_".data, .pre "enable_".data, .pre "disable_".data,
    .pre "show_".data, .pre "display_".data, .pre "retain_".data,
    .suf "_time".data, .suf "_period".data, .suf "_expiry".data,
    .suf "_timeout".data, .suf "_ttl".data, .suf "_validity_period".data,
    .suf "_size".data, .suf "_count".data, .suf "_length".data,
    .pre "max_".data, .pre "min_".data,
    .suf "_threads".data, .suf "_pool_size".data, .suf "_interval".data ]

/-- `TOMLRedactor.SENSITIVE_PATTERNS` (a set of substrings). -/
def SENSITIVE_PATTERNS : List (List Char) :=
  [ "password".data, "passwd".data, "pwd".data,
    "key".data, "apikey".data, "api_key".data, "secret".data,
    "auth_token".data, "access_token".data, "refresh_token".data,
    "bearer_token".data, "credential".data, "credentials".data,
    "key_password".data, "moesifkey".data, "embedding_endpoint_key".data ]

/-- Python's substring test `needle in s`: does `needle` occur as a
contiguous substring of `l`? -/
def containsSub (needle : List Char) : List Char → Bool
  | [] => needle.isEmpty
  | c :: cs => needle.isPrefixOf (c :: cs) || containsSub needle cs

/-- Does `\btoken\b` match at the head of `l`, where `prev` is the character
just before `l` (`none` at the start of the string)? -/
def tokenHere (prev : Option Char) (l : List Char) : Bool :=
  match l with
  | 't' :: 'o' :: 'k' :: 'e' :: 'n' :: rest =>
    (match prev with
     | none => true
     | some p => !isWordChar p)
    &&
    (match rest with
     | [] => true
     | c :: _ => !isWordChar c)
  | _ => false

/-- Scan for `\btoken\b` at every position, carrying the previous character. -/
def scanToken (prev : Option Char) : List Char → Bool
  | [] => false
  | c :: cs => tokenHere prev (c :: cs) || scanToken (some c) cs

/-- `re.search(r'\btoken\b', l)`. -/
def hasStandaloneToken (l : List Char) : Bool :=
  scanToken none l

/-- `TOMLRedactor.TOKEN_PATTERNS`: `\btoken\b`, `_token$`, `^token_`. -/
def matchesTokenPatterns (l : List Char) : Bool :=
  hasStandaloneToken l
  || matchKeyPat (KeyPat.suf "_token".data) l
  || matchKeyPat (KeyPat.pre "token_".data) l

/-- `re.sub(r'["\']', '', key).lower()`: remove every quote character and
lower-case. -/
def normalize_key (key : List Char) : List Char :=
  (key.filter (fun c => !isQuoteChar c)).map Char.toLower

/-- `TOMLRedactor.is_sensitive_key`. -/
def is_sensitive_key (key : List Char) : Bool :=
  if CONFIG_EXCLUDE_PATTERNS.any (fun p => matchKeyPat p (normalize_key key)) then false
  else if SENSITIVE_PATTERNS.any (fun p => containsSub p (normalize_key key)) then true
  else if matchesTokenPatterns (normalize_key key) then true
  else false

/-- After the first digit of a digit part: consume `(('_')? digit)*`
(single underscores allowed only between digits, as in Python's float
literals). -/
def digitsRest : List Char → List Char
  | '_' :: c :: rest => if c.isDigit then digitsRest rest else '_' :: c :: rest
  | c :: rest => if c.isDigit then digitsRest rest else c :: rest
  | [] => []

/-- Consume a digit part (`digit (('_')? digit)*`); `none` if there is no
digit at the head. -/
def parseDigitpart : List Char → Option (List Char)
  | c :: rest => if c.isDigit then some (digitsRest rest) else none
  | [] => none

/-- Consume an exponent `e [+-]? digitpart` (input already lower-cased). -/
def parseExpPart : List Char → Option (List Char)
  | c :: rest =>
    if c = 'e' then
      match rest with
      | s :: rest' =>
        if s = '+' || s = '-' then parseDigitpart rest' else parseDigitpart rest
      | [] => none
    else none
  | [] => none

/-- Optional exponent: if the next character is `e` an exponent must follow
(an unconsumable `e` can never lead to acceptance anyway). -/
def tryExp (l : List Char) : Option (List Char) :=
  match l with
  | [] => some []
  | c :: _ => if c = 'e' then parseExpPart l else some l

/-- Optional fraction: `. digitpart?`. -/
def tryFrac (l : List Char) : List Char :=
  match l with
  | '.' :: rest =>
    match parseDigitpart rest with
    | some r => r
    | none => rest
  | _ => l

/-- A float literal body: `digitpart [. digitpart?] [exp]` or
`. digitpart [exp]` (input already lower-cased, sign already removed). -/
def parseNumber (l : List Char) : Option (List Char) :=
  match l with
  | '.' :: rest => (parseDigitpart rest).bind tryExp
  | _ => (parseDigitpart l).bind (fun r => tryExp (tryFrac r))

/-- An optional leading sign, as accepted by `float`. -/
def dropSign : List Char → List Char
  | '+' :: r => r
  | '-' :: r => r
  | r => r

/-- Is the signless, lower-cased body acceptable to `float`? -/
def pyFloatBody (t : List Char) : Bool :=
  if t = "inf".data ∨ t = "infinity".data ∨ t = "nan".data then true
  else
    match parseNumber t with
    | some [] => true
    | _ => false

/-- Does Python's `float(s)` succeed?  `float` strips surrounding
whitespace, accepts an optional sign, the case-insensitive words
`inf`/`infinity`/`nan`, or a float literal. -/
def pyFloatAccepts (s : List Char) : Bool :=
  pyFloatBody (dropSign ((pyStrip s).map Char.toLower))

/-- After the first `.` of the JWT pattern: `[A-Za-z0-9_-]* \.`
(the final `[A-Za-z0-9_-]*` of the pattern may be empty, so nothing after
the second dot is constrained). -/
def jwtSeg2 : List Char → Bool
  | [] => false
  | c :: rest => if c = '.' then true else if isUrlTokChar c then jwtSeg2 rest else false

/-- After a literal `eyJ`: `[A-Za-z0-9_-]* \. [A-Za-z0-9_-]* \.`. -/
def jwtAfter : List Char → Bool
  | [] => false
  | c :: rest => if c = '.' then jwtSeg2 rest else if isUrlTokChar c then jwtAfter rest else false

/-- `re.search` of the JWT pattern
`eyJ[A-Za-z0-9_-]*\.[A-Za-z0-9_-]*\.[A-Za-z0-9_-]*`: try every start
position. -/
def jwtSearch : List Char → Bool
  | 'e' :: 'y' :: 'J' :: rest => jwtAfter rest || jwtSearch ('y' :: 'J' :: rest)
  | _ :: cs => jwtSearch cs
  | [] => false

/-- The `$` anchor: at the end of the string or just before a trailing
newline. -/
def dollarEnd (l : List Char) : Bool :=
  l = [] || l = ['\n']

/-- `={0,2}$` after the base64 run. -/
def eqPadEnd : List Char → Bool
  | '=' :: '=' :: r => dollarEnd r
  | '=' :: r => dollarEnd r
  | r => dollarEnd r

/-- `^[A-Za-z0-9+/]{40,}={0,2}$`. -/
def matchB64Value (l : List Char) : Bool :=
  decide ((l.takeWhile isB64Char).length ≥ 40) && eqPadEnd (l.dropWhile isB64Char)

/-- `^sk-[A-Za-z0-9_-]{20,}` (unanchored at the end). -/
def matchSkValue (l : List Char) : Bool :=
  match l with
  | 's' :: 'k' :: '-' :: rest => decide ((rest.takeWhile isUrlTokChar).length ≥ 20)
  | _ => false

/-- `^[A-Za-z0-9]{32,}$`. -/
def matchAlnumValue (l : List Char) : Bool :=
  decide ((l.takeWhile Char.isAlphanum).length ≥ 32) && dollarEnd (l.dropWhile Char.isAlphanum)

/-- `TOMLRedactor.VALUE_PATTERNS`, each tried by `re.search`. -/
def matchesValuePatterns (l : List Char) : Bool :=
  jwtSearch l || matchB64Value l || matchSkValue l || matchAlnumValue l

/-- `value.strip().strip('"\'')`: the normalized value used for
classification. -/
def cleanValue (v : List Char) : List Char :=
  stripQuotes (pyStrip v)

/-- `TOMLRedactor.__init__` configuration. -/
structure Config where
  redaction_text : List Char
  check_values : Bool
  preserve_commented : Bool
  remove_comments : Bool

/-- The constructor defaults. -/
def defaultConfig : Config :=
  ⟨"***REDACTED***".data, true, true, false⟩

/-- The mutable redaction-tracking state (`redacted_count`,
`redacted_lines`). -/
structure RState where
  redacted_count : Nat
  redacted_lines : Finset Nat

/-- `TOMLRedactor.is_sensitive_value`. -/
def is_sensitive_value (cfg : Config) (value : List Char) : Bool :=
  if !cfg.check_values then false
  else if "$".data.isPrefixOf (cleanValue value)
       || "$\x7b".data.isPrefixOf (cleanValue value) then false
  else if (cleanValue value).map Char.toLower = "true".data
       ∨ (cleanValue value).map Char.toLower = "false".data then false
  else if pyFloatAccepts (cleanValue value) then false
  else matchesValuePatterns (cleanValue value)

/-- `(.+)$` at the value position: at least one non-newline character,
greedy, with `$` at the end of the string or before a trailing newline. -/
def dotPlusDollar (t : List Char) : Option (List Char) :=
  if t.isEmpty then none
  else if t.getLast? = some '\n' then
    if !t.dropLast.isEmpty && !t.dropLast.contains '\n' then some t.dropLast else none
  else if !t.contains '\n' then some t else none

/-- `\s*(.+)$`: greedy whitespace, with backtracking into `(.+)` when the
remainder would otherwise be empty. -/
def spacesThenValue : List Char → Option (List Char)
  | [] => none
  | c :: cs =>
    if isPySpace c then
      match spacesThenValue cs with
      | some v => some v
      | none => dotPlusDollar (c :: cs)
    else dotPlusDollar (c :: cs)

/-- `\s*=\s*(.+)$` after the key. -/
def eqThenValue (l : List Char) : Option (List Char) :=
  match l.dropWhile isPySpace with
  | '=' :: rest => spacesThenValue rest
  | _ => none

/-- The `(?:\."[^"]*")*` part of the key grammar followed by
`\s*=\s*(.+)$`, with the regex's greedy backtracking order.  `inQ = false`:
at a group boundary (try another `."..."` group first, then the `=` part);
`inQ = true`: inside the `[^"]*` body of a group. -/
def qLoop : Bool → List Char → Option (List Char × List Char)
  | inQ, [] => if inQ then none else (eqThenValue []).map (fun v => ([], v))
  | inQ, c :: rest =>
    if inQ then
      if c = '"' then (qLoop false rest).map (fun p => ('"' :: p.1, p.2))
      else (qLoop true rest).map (fun p => (c :: p.1, p.2))
    else
      if c = '.' then
        match rest with
        | [] => (eqThenValue (c :: rest)).map (fun v => ([], v))
        | d :: rest' =>
          if d = '"' then
            match qLoop true rest' with
            | some p => some ('.' :: '"' :: p.1, p.2)
            | none => (eqThenValue (c :: rest)).map (fun v => ([], v))
          else (eqThenValue (c :: rest)).map (fun v => ([], v))
      else (eqThenValue (c :: rest)).map (fun v => ([], v))

/-- The `[a-zA-Z0-9_.-]*` part of the key grammar (greedy, with fallback to
the quoted-group part at each position), followed by the rest of the
pattern.  Returns the key characters consumed and the captured value. -/
def aStar : List Char → Option (List Char × List Char)
  | [] => qLoop false []
  | c :: cs =>
    if isKeyChar c then
      match aStar cs with
      | some p => some (c :: p.1, p.2)
      | none => qLoop false (c :: cs)
    else qLoop false (c :: cs)

/-- `re.match(r'^(\s*)([a-zA-Z_][a-zA-Z0-9_.-]*(?:\."[^"]*")*)\s*=\s*(.+)$',
line)`: the captured `(indent, key, value)` groups, or `none`. -/
def matchAssignment (line : List Char) : Option (List Char × List Char × List Char) :=
  match line.dropWhile isPySpace with
  | [] => none
  | c :: cs =>
    if isKeyStart c then
      match aStar cs with
      | some p => some (line.takeWhile isPySpace, c :: p.1, p.2)
      | none => none
    else none

/-- The replacement value built by `redact_line`, preserving the quote
style of the stripped original value. -/
def redactedValue (cfg : Config) (value : List Char) : List Char :=
  if (pyStrip value).head? = some '"' ∧ (pyStrip value).getLast? = some '"' then
    '"' :: (cfg.redaction_text ++ ['"'])
  else if (pyStrip value).head? = some '\'' ∧ (pyStrip value).getLast? = some '\'' then
    '\'' :: (cfg.redaction_text ++ ['\''])
  else
    '"' :: (cfg.redaction_text ++ ['"'])

/-- `TOMLRedactor.redact_line`: returns the output line and the updated
tracking state. -/
def redact_line (cfg : Config) (st : RState) (line : List Char) (line_num : Nat) :
    List Char × RState :=
  if (line.dropWhile isPySpace).isEmpty then (line, st)
  else if (line.dropWhile isPySpace).head? = some '#' then
    if cfg.remove_comments then ([], st) else (line, st)
  else
    match matchAssignment line with
    | none => (line, st)
    | some (indent, key, value) =>
      if is_sensitive_key key || is_sensitive_value cfg value then
        (indent ++ key ++ (' ' :: '=' :: ' ' :: redactedValue cfg value) ++ ['\n'],
         ⟨st.redacted_count + 1, insert line_num st.redacted_lines⟩)
      else (line, st)

/-- The quoted-group part of a key in the assignment grammar, flattened from
a list of group bodies: `flatQ [b1, b2]` is `."b1"."b2"`.  Used to
characterize the keys the grammar can capture. -/
def flatQ : List (List Char) → List Char
  | [] => []
  | b :: bs => '.' :: '"' :: (b ++ '"' :: flatQ bs)

/-- Every quoted-group body is free of double quotes (the `[^"]*` class). -/
def ValidQ (bs : List (List Char)) : Prop := ∀ b ∈ bs, '"' ∉ b

theorem isKeyStart_ne_hash {c : Char} (h : isKeyStart c = true) : c ≠ '#' := by
  rintro rfl; exact absurd h (by decide)

theorem isKeyStart_not_space {c : Char} (h : isKeyStart c = true) : isPySpace c = false := by
  by_contra hc
  rw [Bool.not_eq_false] at hc
  simp only [isPySpace, Bool.or_eq_true, decide_eq_true_eq] at hc
  rcases hc with ((((h1 | h1) | h1) | h1) | h1) | h1 <;> subst h1 <;> exact absurd h (by decide)

theorem matchAssignment_strip {line i k v} (h : matchAssignment line = some (i, k, v)) :
    ∃ c cs p, line.dropWhile isPySpace = c :: cs
      ∧ isKeyStart c = true ∧ i = line.takeWhile isPySpace
      ∧ aStar cs = some p ∧ k = c :: p.1 ∧ v = p.2 := by
  unfold matchAssignment at h
  split at h
  · cases h
  next c cs heq =>
    by_cases hc : isKeyStart c = true
    · rw [if_pos hc] at h
      cases ha : aStar cs with
      | none => rw [ha] at h; cases h
      | some p =>
        rw [ha] at h
        injection h with h1
        rw [Prod.mk.injEq, Prod.mk.injEq] at h1
        obtain ⟨hi, hk, hv⟩ := h1
        exact ⟨c, cs, p, heq, hc, hi.symm, ha, hk.symm, hv.symm⟩
    · rw [if_neg hc] at h; cases h

theorem redact_line_blank (cfg : Config) (st : RState) (line : List Char) (n : Nat)
    (h : line.dropWhile isPySpace = []) : redact_line cfg st line n = (line, st) := by
  unfold redact_line
  simp [h]

theorem redact_line_comment (cfg : Config) (st : RState) (line : List Char) (n : Nat)
    (h : (line.dropWhile isPySpace).head? = some '#') :
    redact_line cfg st line n = ((if cfg.remove_comments then [] else line), st) := by
  unfold redact_line
  have hne : (line.dropWhile isPySpace).isEmpty = false := by
    cases hd : line.dropWhile isPySpace with
    | nil => rw [hd] at h; simp at h
    | cons a as => simp
  rw [hne]
  simp only [Bool.false_eq_true, if_false, h, if_pos rfl]
  cases hrc : cfg.remove_comments <;> simp

theorem redact_line_nomatch (cfg : Config) (st : RState) (line : List Char) (n : Nat)
    (hne : line.dropWhile isPySpace ≠ [])
    (hc : (line.dropWhile isPySpace).head? ≠ some '#')
    (hm : matchAssignment line = none) :
    redact_line cfg st line n = (line, st) := by
  unfold redact_line
  have hne' : (line.dropWhile isPySpace).isEmpty = false := by
    cases hd : line.dropWhile isPySpace with
    | nil => exact absurd hd hne
    | cons a as => simp
  rw [hne']
  simp only [Bool.false_eq_true, if_false, if_neg hc, hm]

theorem redact_line_assign (cfg : Config) (st : RState) (line : List Char) (n : Nat)
    (i k v : List Char) (hm : matchAssignment line = some (i, k, v)) :
    redact_line cfg st line n =
      if is_sensitive_key k || is_sensitive_value cfg v then
        (i ++ k ++ (' ' :: '=' :: ' ' :: redactedValue cfg v) ++ ['\n'],
         ⟨st.redacted_count + 1, insert n st.redacted_lines⟩)
      else (line, st) := by
  obtain ⟨c, cs, p, hd, hks, hi, ha, hk, hv⟩ := matchAssignment_strip hm
  unfold redact_line
  have hne' : (line.dropWhile isPySpace).isEmpty = false := by rw [hd]; simp
  have hch : (line.dropWhile isPySpace).head? ≠ some '#' := by
    rw [hd]; simp; exact isKeyStart_ne_hash hks
  rw [hne']
  simp only [Bool.false_eq_true, if_false, if_neg hch, hm]

/-- C1: a key whose normalized form (quotes stripped, lower-cased) matches
any exclude pattern is never classified sensitive: the exclude veto is
absolute and short-circuits the sensitive-term and token-pattern checks. -/
theorem exclude_veto (key : List Char)
    (h : CONFIG_EXCLUDE_PATTERNS.any (fun p => matchKeyPat p (normalize_key key)) = true) :
    is_sensitive_key key = false := by
  unfold is_sensitive_key
  rw [if_pos h]

theorem exclude_veto_witness :
    CONFIG_EXCLUDE_PATTERNS.any (fun p => matchKeyPat p (normalize_key ("max_token_count".data))) = true
    ∧ is_sensitive_key ("max_token_count".data) = false :=
  ⟨by decide, exclude_veto ("max_token_count".data) (by decide)⟩

/-- C5: a value whose trimmed, quote-stripped form begins with `$`, or
case-insensitively equals `true` or `false`, or parses as a float, is never
classified sensitive, even when value checks are enabled. -/
theorem value_exemptions (cfg : Config) (v : List Char)
    (h : "$".data.isPrefixOf (cleanValue v) = true
       ∨ (cleanValue v).map Char.toLower = "true".data
       ∨ (cleanValue v).map Char.toLower = "false".data
       ∨ pyFloatAccepts (cleanValue v) = true) :
    is_sensitive_value cfg v = false := by
  unfold is_sensitive_value
  split
  · rfl
  · split
    · rfl
    · split
      · rfl
      · split
        · rfl
        · rename_i h1 h2 h3
          rcases h with h | h | h | h
          · exact absurd (by rw [h]; rfl) h1
          · exact absurd (Or.inl h) h2
          · exact absurd (Or.inr h) h2
          · exact absurd h h3

theorem value_exemptions_witness :
    pyFloatAccepts (cleanValue ("42.5".data)) = true
    ∧ is_sensitive_value defaultConfig ("42.5".data) = false :=
  ⟨by decide, value_exemptions defaultConfig ("42.5".data) (Or.inr (Or.inr (Or.inr (by decide))))⟩

/-- C6: a key whose normalized form contains a sensitive-term substring and
matches no exclude pattern is classified sensitive; `api_key` is sensitive
while `max_token_count` is vetoed by the `^max_` exclude pattern. -/
theorem sensitive_terms_detect :
    (∀ key : List Char,
      CONFIG_EXCLUDE_PATTERNS.any (fun p => matchKeyPat p (normalize_key key)) = false →
      SENSITIVE_PATTERNS.any (fun p => containsSub p (normalize_key key)) = true →
      is_sensitive_key key = true)
    ∧ is_sensitive_key ("api_key".data) = true
    ∧ is_sensitive_key ("max_token_count".data) = false := by
  refine ⟨?_, by decide, by decide⟩
  intro key h1 h2
  unfold is_sensitive_key
  rw [if_neg (by simp [h1]), if_pos h2]

theorem sensitive_terms_detect_witness :
    is_sensitive_key ("api_key".data) = true :=
  sensitive_terms_detect.1 ("api_key".data) (by decide) (by decide)

/-- C7: a line whose left-trimmed form starts with `#` is dropped (empty
output) when comment removal is configured and otherwise emitted unchanged,
regardless of the preserve-commented flag; the tracking state is never
touched. -/
theorem comment_handling (cfg : Config) (st : RState) (line : List Char) (n : Nat)
    (h : (line.dropWhile isPySpace).head? = some '#') :
    redact_line cfg st line n = ((if cfg.remove_comments then [] else line), st) :=
  redact_line_comment cfg st line n h

theorem comment_handling_witness :
    redact_line defaultConfig ⟨0, ∅⟩ ("# password = \"hunter2\"\n".data) 1 =
      ("# password = \"hunter2\"\n".data, (⟨0, ∅⟩ : RState)) := by
  have h := comment_handling defaultConfig ⟨0, ∅⟩ ("# password = \"hunter2\"\n".data) 1 (by decide)
  simpa using h

/-- C2 counterexample: redacting `token = abc123` produces
`token = "***REDACTED***"`, and a second pass over that output redacts it
again — the second pass's redaction count is 1, not 0. -/
theorem second_pass_zero_cex :
    (redact_line defaultConfig ⟨0, ∅⟩ ("token = abc123\n".data) 1).1 =
      "token = \"***REDACTED***\"\n".data
    ∧ (redact_line defaultConfig ⟨0, ∅⟩ ("token = \"***REDACTED***\"\n".data) 1).2.redacted_count ≠ 0 := by
  constructor
  · decide
  · decide

/-- C8 counterexample: the value normalization used by the classifier maps
`''x''` to `x`, not to `'x'` — it does not strip just one quote layer. -/
theorem one_layer_cex :
    cleanValue ("''x''".data) = "x".data ∧ cleanValue ("''x''".data) ≠ "'x'".data := by
  constructor
  · decide
  · decide

/-- C4: a line that is not redacted — blank, comment with removal off,
assignment with non-sensitive key and value, or no assignment-grammar
match — is returned byte-identically with the tracking state unchanged. -/
theorem pass_through (cfg : Config) (st : RState) (line : List Char) (n : Nat)
    (h : line.dropWhile isPySpace = []
       ∨ ((line.dropWhile isPySpace).head? = some '#' ∧ cfg.remove_comments = false)
       ∨ (matchAssignment line = none ∧ line.dropWhile isPySpace ≠ []
          ∧ (line.dropWhile isPySpace).head? ≠ some '#')
       ∨ (∃ i k v, matchAssignment line = some (i, k, v)
          ∧ is_sensitive_key k = false ∧ is_sensitive_value cfg v = false)) :
    redact_line cfg st line n = (line, st) := by
  rcases h with h | ⟨h1, h2⟩ | ⟨h1, h2, h3⟩ | ⟨i, k, v, hm, hk, hv⟩
  · exact redact_line_blank cfg st line n h
  · rw [redact_line_comment cfg st line n h1, h2]
    simp
  · exact redact_line_nomatch cfg st line n h2 h3 h1
  · rw [redact_line_assign cfg st line n i k v hm, if_neg (by simp [hk, hv])]

theorem pass_through_witness :
    redact_line defaultConfig ⟨0, ∅⟩ ("max_retry_count = 5\n".data) 2 =
      ("max_retry_count = 5\n".data, (⟨0, ∅⟩ : RState)) :=
  pass_through defaultConfig ⟨0, ∅⟩ ("max_retry_count = 5\n".data) 2
    (Or.inr (Or.inr (Or.inr
      ⟨[], "max_retry_count".data, "5".data, by decide, by decide, by decide⟩)))

/-- C3: a redacted assignment's replacement value is double-quoted when the
trimmed original value starts and ends with a double quote, single-quoted
when it starts and ends with a single quote, and double-quoted otherwise. -/
theorem quote_style (cfg : Config) (st : RState) (line : List Char) (n : Nat)
    (i k v : List Char) (hm : matchAssignment line = some (i, k, v))
    (hs : (is_sensitive_key k || is_sensitive_value cfg v) = true) :
    (redact_line cfg st line n).1 =
      i ++ k ++ (' ' :: '=' :: ' ' ::
        (if (pyStrip v).head? = some '"' ∧ (pyStrip v).getLast? = some '"' then
          '"' :: (cfg.redaction_text ++ ['"'])
        else if (pyStrip v).head? = some '\'' ∧ (pyStrip v).getLast? = some '\'' then
          '\'' :: (cfg.redaction_text ++ ['\''])
        else '"' :: (cfg.redaction_text ++ ['"']))) ++ ['\n'] := by
  rw [redact_line_assign cfg st line n i k v hm, if_pos hs]
  rfl

theorem quote_style_witness :
    (redact_line defaultConfig ⟨0, ∅⟩ ("token = 'abc123'".data) 1).1 =
      "token = '***REDACTED***'\n".data := by
  rw [quote_style defaultConfig ⟨0, ∅⟩ ("token = 'abc123'".data) 1 []
    ("token".data) ("'abc123'".data) (by decide) (by decide)]
  decide

/-- C10: a redacted assignment line is exactly
`indent ++ key ++ " = " ++ replacement ++ "\n"` — one space on each side of
`=` — and always ends with a newline, even when the input line did not. -/
theorem redacted_line_shape (cfg : Config) (st : RState) (line : List Char) (n : Nat)
    (i k v : List Char) (hm : matchAssignment line = some (i, k, v))
    (hs : (is_sensitive_key k || is_sensitive_value cfg v) = true) :
    (redact_line cfg st line n).1 =
      i ++ k ++ (' ' :: '=' :: ' ' :: redactedValue cfg v) ++ ['\n']
    ∧ (redact_line cfg st line n).1.getLast? = some '\n' := by
  rw [redact_line_assign cfg st line n i k v hm, if_pos hs]
  refine ⟨rfl, ?_⟩
  have hsplit : i ++ k ++ (' ' :: '=' :: ' ' :: redactedValue cfg v) ++ ['\n']
      = (i ++ (k ++ (' ' :: '=' :: ' ' :: redactedValue cfg v))) ++ ['\n'] := by
    simp [List.append_assoc]
  rw [hsplit, List.getLast?_concat]

theorem redacted_line_shape_witness :
    (redact_line defaultConfig ⟨0, ∅⟩ ("token   =   abc123".data) 1).1 =
      "token = \"***REDACTED***\"\n".data := by
  rw [(redacted_line_shape defaultConfig ⟨0, ∅⟩ ("token   =   abc123".data) 1 []
    ("token".data) ("abc123".data) (by decide) (by decide)).1]
  decide

/-- C9: the redaction core is total — every line input yields an output
line and a state — and unrecognized syntax degrades to pass-through rather
than failing. -/
theorem redact_total (cfg : Config) (st : RState) (line : List Char) (n : Nat) :
    (∃ out st2, redact_line cfg st line n = (out, st2))
    ∧ (line.dropWhile isPySpace ≠ [] → (line.dropWhile isPySpace).head? ≠ some '#' →
        matchAssignment line = none → redact_line cfg st line n = (line, st)) :=
  ⟨⟨(redact_line cfg st line n).1, (redact_line cfg st line n).2, rfl⟩,
   fun h1 h2 h3 => redact_line_nomatch cfg st line n h1 h2 h3⟩

theorem redact_total_witness :
    redact_line defaultConfig ⟨0, ∅⟩ ("[apim.analytics]".data) 7 =
      ("[apim.analytics]".data, (⟨0, ∅⟩ : RState)) :=
  (redact_total defaultConfig ⟨0, ∅⟩ ("[apim.analytics]".data) 7).2
    (by decide) (by decide) (by decide)

theorem head?_dropWhile {p : Char → Bool} {l : List Char} {c : Char}
    (h : (l.dropWhile p).head? = some c) : p c = false := by
  induction l with
  | nil => simp [List.dropWhile] at h
  | cons a as ih =>
    rw [List.dropWhile_cons] at h
    split at h
    · exact ih h
    · next hpa =>
      rw [List.head?_cons] at h
      injection h with h
      subst h
      simp only [Bool.not_eq_true] at hpa
      exact hpa

theorem dropWhile_suffix (p : Char → Bool) (l : List Char) :
    ∃ t, l = t ++ l.dropWhile p := by
  induction l with
  | nil => exact ⟨[], rfl⟩
  | cons a as ih =>
    rw [List.dropWhile_cons]
    split
    · obtain ⟨t, ht⟩ := ih
      exact ⟨a :: t, by rw [List.cons_append, ← ht]⟩
    · exact ⟨[], rfl⟩

theorem getLast?_dropWhile (p : Char → Bool) (l : List Char)
    (h : l.dropWhile p ≠ []) : (l.dropWhile p).getLast? = l.getLast? := by
  obtain ⟨t, ht⟩ := dropWhile_suffix p l
  conv_rhs => rw [ht]
  rw [List.getLast?_append]
  cases hs : (l.dropWhile p).getLast? with
  | none => exact absurd (List.getLast?_eq_none_iff.mp hs) h
  | some a => rfl

theorem cleanValue_no_quote_ends (v : List Char) :
    (∀ c, (cleanValue v).head? = some c → isQuoteChar c = false)
    ∧ (∀ c, (cleanValue v).getLast? = some c → isQuoteChar c = false) := by
  constructor
  · intro c hc
    unfold cleanValue stripQuotes at hc
    rw [List.head?_reverse] at hc
    by_cases hemp : ((pyStrip v).dropWhile isQuoteChar).reverse.dropWhile isQuoteChar = []
    · rw [hemp] at hc
      cases hc
    · rw [getLast?_dropWhile isQuoteChar _ hemp, List.getLast?_reverse] at hc
      exact head?_dropWhile hc
  · intro c hc
    unfold cleanValue stripQuotes at hc
    rw [List.getLast?_reverse] at hc
    exact head?_dropWhile hc

/-- C8 (amended): value normalization trims whitespace and strips ALL
surrounding quote characters — the normalized form neither starts nor ends
with a quote — and in particular `''x''` normalizes to `x`. -/
theorem strip_all_quotes (v : List Char) :
    (∀ c, (cleanValue v).head? = some c → isQuoteChar c = false)
    ∧ (∀ c, (cleanValue v).getLast? = some c → isQuoteChar c = false)
    ∧ cleanValue ("''x''".data) = "x".data :=
  ⟨(cleanValue_no_quote_ends v).1, (cleanValue_no_quote_ends v).2, by decide⟩

theorem strip_all_quotes_witness : isQuoteChar 'a' = false :=
  (strip_all_quotes ("'a'".data)).1 'a' (by decide)

theorem qLoop_true_cons (c : Char) (rest : List Char) :
    qLoop true (c :: rest) =
      if c = '"' then (qLoop false rest).map (fun p => ('"' :: p.1, p.2))
      else (qLoop true rest).map (fun p => (c :: p.1, p.2)) := by
  rw [qLoop.eq_def]
  rfl

theorem qLoop_false_one (c : Char) :
    qLoop false [c] = (eqThenValue [c]).map (fun v => ([], v)) := by
  rw [qLoop.eq_def]
  dsimp only
  rw [ite_self]
  rfl

theorem qLoop_false_cons2 (c d : Char) (rest' : List Char) :
    qLoop false (c :: d :: rest') =
      if c = '.' then
        if d = '"' then
          match qLoop true rest' with
          | some p => some ('.' :: '"' :: p.1, p.2)
          | none => (eqThenValue (c :: d :: rest')).map (fun v => ([], v))
        else (eqThenValue (c :: d :: rest')).map (fun v => ([], v))
      else (eqThenValue (c :: d :: rest')).map (fun v => ([], v)) := by
  rw [qLoop.eq_def]
  dsimp only
  by_cases hc : c = '.'
  · rw [if_pos hc]
    rfl
  · rw [if_neg hc]
    rfl

theorem aStar_cons (c : Char) (cs : List Char) :
    aStar (c :: cs) =
      if isKeyChar c then
        match aStar cs with
        | some p => some (c :: p.1, p.2)
        | none => qLoop false (c :: cs)
      else qLoop false (c :: cs) := by
  rw [aStar.eq_def]

theorem spacesThenValue_cons (c : Char) (cs : List Char) :
    spacesThenValue (c :: cs) =
      if isPySpace c then
        match spacesThenValue cs with
        | some v => some v
        | none => dotPlusDollar (c :: cs)
      else dotPlusDollar (c :: cs) := by
  rw [spacesThenValue.eq_def]

theorem map_nil_fst {l : List Char} {ks v : List Char}
    (h : (eqThenValue l).map (fun v => (([] : List Char), v)) = some (ks, v)) :
    ks = [] := by
  cases he : eqThenValue l with
  | none => rw [he] at h; cases h
  | some w =>
    rw [he] at h
    injection h with h1
    rw [Prod.mk.injEq] at h1
    exact h1.1.symm

theorem qLoop_shape : ∀ (n : Nat) (l : List Char), l.length ≤ n → ∀ inQ ks v,
    qLoop inQ l = some (ks, v) →
    (inQ = true → ∃ body bs, '"' ∉ body ∧ ValidQ bs ∧ ks = body ++ '"' :: flatQ bs)
    ∧ (inQ = false → ∃ bs, ValidQ bs ∧ ks = flatQ bs) := by
  intro n
  induction n with
  | zero =>
    intro l hl inQ ks v h
    have hnil : l = [] := List.length_eq_zero.mp (Nat.le_zero.mp hl)
    subst hnil
    cases inQ
    · rw [show qLoop false [] = none from rfl] at h
      cases h
    · rw [show qLoop true [] = none from rfl] at h
      cases h
  | succ n ih =>
    intro l hl inQ ks v h
    cases l with
    | nil =>
      cases inQ
      · rw [show qLoop false [] = none from rfl] at h
        cases h
      · rw [show qLoop true [] = none from rfl] at h
        cases h
    | cons c rest =>
      have hrest : rest.length ≤ n := Nat.le_of_succ_le_succ hl
      cases inQ with
      | true =>
        refine ⟨fun _ => ?_, fun hff => Bool.noConfusion hff⟩
        rw [qLoop_true_cons] at h
        by_cases hc : c = '"'
        · subst hc
          rw [if_pos rfl] at h
          cases hq : qLoop false rest with
          | none => rw [hq] at h; cases h
          | some p =>
            rw [hq] at h
            injection h with h1
            rw [Prod.mk.injEq] at h1
            obtain ⟨hks, _⟩ := h1
            obtain ⟨bs, hbs, hp⟩ := (ih rest hrest false p.1 p.2 (by rw [hq])).2 rfl
            refine ⟨[], bs, by simp, hbs, ?_⟩
            rw [← hks, hp]
            rfl
        · rw [if_neg hc] at h
          cases hq : qLoop true rest with
          | none => rw [hq] at h; cases h
          | some p =>
            rw [hq] at h
            injection h with h1
            rw [Prod.mk.injEq] at h1
            obtain ⟨hks, _⟩ := h1
            obtain ⟨body, bs, hb, hbs, hp⟩ := (ih rest hrest true p.1 p.2 (by rw [hq])).1 rfl
            refine ⟨c :: body, bs, ?_, hbs, ?_⟩
            · intro hmem
              rcases List.mem_cons.mp hmem with he | hmem2
              · exact hc he.symm
              · exact hb hmem2
            · rw [← hks, hp]
              rfl
      | false =>
        refine ⟨fun htt => Bool.noConfusion htt, fun _ => ?_⟩
        cases rest with
        | nil =>
          rw [qLoop_false_one] at h
          refine ⟨[], fun b hb => absurd hb (List.not_mem_nil b), ?_⟩
          rw [map_nil_fst h]
          rfl
        | cons d rest' =>
          rw [qLoop_false_cons2] at h
          have hr' : rest'.length ≤ n := by
            simp only [List.length_cons] at hrest
            omega
          by_cases hc : c = '.'
          · rw [if_pos hc] at h
            by_cases hd : d = '"'
            · rw [if_pos hd] at h
              cases hq : qLoop true rest' with
              | some p =>
                rw [hq] at h
                injection h with h1
                rw [Prod.mk.injEq] at h1
                obtain ⟨hks, _⟩ := h1
                obtain ⟨body, bs, hb, hbs, hp⟩ := (ih rest' hr' true p.1 p.2 (by rw [hq])).1 rfl
                refine ⟨body :: bs, ?_, ?_⟩
                · intro b hbmem
                  rcases List.mem_cons.mp hbmem with rfl | hbmem2
                  · exact hb
                  · exact hbs b hbmem2
                · rw [← hks, hp]
                  rfl
              | none =>
                rw [hq] at h
                refine ⟨[], fun b hb => absurd hb (List.not_mem_nil b), ?_⟩
                rw [map_nil_fst h]
                rfl
            · rw [if_neg hd] at h
              refine ⟨[], fun b hb => absurd hb (List.not_mem_nil b), ?_⟩
              rw [map_nil_fst h]
              rfl
          · rw [if_neg hc] at h
            refine ⟨[], fun b hb => absurd hb (List.not_mem_nil b), ?_⟩
            rw [map_nil_fst h]
            rfl

theorem aStar_shape : ∀ (l ks v : List Char), aStar l = some (ks, v) →
    ∃ as bs, (∀ a ∈ as, isKeyChar a = true) ∧ ValidQ bs ∧ ks = as ++ flatQ bs := by
  intro l
  induction l with
  | nil =>
    intro ks v h
    rw [show aStar [] = none from rfl] at h
    cases h
  | cons c cs ih =>
    intro ks v h
    rw [aStar_cons] at h
    by_cases hc : isKeyChar c = true
    · rw [if_pos hc] at h
      cases ha : aStar cs with
      | some p =>
        rw [ha] at h
        injection h with h1
        rw [Prod.mk.injEq] at h1
        obtain ⟨hks, _⟩ := h1
        obtain ⟨as, bs, has, hbs, hp⟩ := ih p.1 p.2 (by rw [ha])
        refine ⟨c :: as, bs, ?_, hbs, ?_⟩
        · intro a hmem
          rcases List.mem_cons.mp hmem with rfl | hmem2
          · exact hc
          · exact has a hmem2
        · rw [← hks, hp]
          rfl
      | none =>
        rw [ha] at h
        obtain ⟨bs, hbs, hks⟩ := (qLoop_shape (c :: cs).length (c :: cs) le_rfl false ks v h).2 rfl
        exact ⟨[], bs, by simp, hbs, hks⟩
    · rw [if_neg hc] at h
      obtain ⟨bs, hbs, hks⟩ := (qLoop_shape (c :: cs).length (c :: cs) le_rfl false ks v h).2 rfl
      exact ⟨[], bs, by simp, hbs, hks⟩

theorem eqThenValue_quote (X : List Char) : eqThenValue ('"' :: X) = none := by rfl

theorem qLoop_false_eq (B : List Char) (hB : B.head? ≠ some '.') :
    qLoop false B = (eqThenValue B).map (fun v => ([], v)) := by
  cases B with
  | nil => rfl
  | cons d B' =>
    have hd : d ≠ '.' := by
      intro hdd
      exact hB (by rw [hdd]; rfl)
    cases B' with
    | nil => exact qLoop_false_one d
    | cons e B'' =>
      rw [qLoop_false_cons2, if_neg hd]

theorem qLoop_true_body (body rest : List Char) (hb : '"' ∉ body) :
    qLoop true (body ++ '"' :: rest) =
      (qLoop false rest).map (fun p => (body ++ '"' :: p.1, p.2)) := by
  induction body with
  | nil =>
    rw [List.nil_append, qLoop_true_cons, if_pos rfl]
    rfl
  | cons b body' ih =>
    have hbne : b ≠ '"' := by
      intro he
      subst he
      exact hb (List.mem_cons_self _ _)
    have hb' : '"' ∉ body' := fun hm => hb (List.mem_cons_of_mem b hm)
    rw [List.cons_append, qLoop_true_cons, if_neg hbne, ih hb']
    cases hq : qLoop false rest <;> rfl

theorem qLoop_false_flatQ (B rv : List Char) (hB : B.head? ≠ some '.')
    (hEq : eqThenValue B = some rv) :
    ∀ bs : List (List Char), ValidQ bs →
      qLoop false (flatQ bs ++ B) = some (flatQ bs, rv) := by
  intro bs
  induction bs with
  | nil =>
    intro _
    rw [show flatQ [] ++ B = B from by simp [flatQ], qLoop_false_eq B hB, hEq]
    rfl
  | cons b bs' ih =>
    intro hv
    have hb : '"' ∉ b := hv b (List.mem_cons_self b bs')
    have hv' : ValidQ bs' := fun x hx => hv x (List.mem_cons_of_mem b hx)
    rw [show flatQ (b :: bs') ++ B = '.' :: '"' :: (b ++ '"' :: (flatQ bs' ++ B)) from by
      simp [flatQ]]
    rw [qLoop_false_cons2, if_pos rfl, if_pos rfl, qLoop_true_body b _ hb, ih hv']
    rfl

theorem aStar_flatQ (B rv : List Char)
    (hB : ∃ d B', B = d :: B' ∧ isKeyChar d = false ∧ d ≠ '.')
    (hEq : eqThenValue B = some rv) :
    ∀ (as : List Char) (bs : List (List Char)),
      (∀ a ∈ as, isKeyChar a = true) → ValidQ bs →
      aStar (as ++ (flatQ bs ++ B)) = some (as ++ flatQ bs, rv) := by
  obtain ⟨d, B', hBd, hdk, hdd⟩ := hB
  have hBhead : B.head? ≠ some '.' := by
    rw [hBd]
    intro hcon
    injection hcon with hcon
    exact hdd hcon
  intro as
  induction as with
  | nil =>
    intro bs _ hbs
    rw [List.nil_append]
    cases bs with
    | nil =>
      rw [show flatQ [] ++ B = B from by simp [flatQ], hBd, aStar_cons,
        if_neg (by simp [hdk]), ← hBd, qLoop_false_eq B hBhead, hEq]
      rfl
    | cons b bs' =>
      have hsh : flatQ (b :: bs') ++ B = '.' :: ('"' :: (b ++ '"' :: (flatQ bs' ++ B))) := by
        simp [flatQ]
      rw [hsh, aStar_cons, if_pos (by decide : isKeyChar '.' = true)]
      have hnone : aStar ('"' :: (b ++ '"' :: (flatQ bs' ++ B))) = none := by
        rw [aStar_cons, if_neg (by decide : ¬ isKeyChar '"' = true),
          qLoop_false_eq _ (by intro hcon; injection hcon with hcon; exact absurd hcon (by decide)),
          eqThenValue_quote]
        rfl
      rw [hnone]
      have hq := qLoop_false_flatQ B rv hBhead hEq (b :: bs') hbs
      rw [hsh] at hq
      exact hq
  | cons a as' ih =>
    intro bs has hbs
    have ha : isKeyChar a = true := has a (List.mem_cons_self a as')
    have has' : ∀ x ∈ as', isKeyChar x = true := fun x hx => has x (List.mem_cons_of_mem a hx)
    rw [List.cons_append, aStar_cons, if_pos ha, ih bs has' hbs]
    rfl

theorem takeWhile_append_all {p : Char → Bool} {l : List Char} (r : List Char)
    (h : ∀ x ∈ l, p x = true) : (l ++ r).takeWhile p = l ++ r.takeWhile p := by
  induction l with
  | nil => simp
  | cons a as ih =>
    rw [List.cons_append, List.takeWhile_cons, if_pos (h a (List.mem_cons_self a as)),
      ih (fun x hx => h x (List.mem_cons_of_mem a hx)), List.cons_append]

theorem dropWhile_append_all {p : Char → Bool} {l : List Char} (r : List Char)
    (h : ∀ x ∈ l, p x = true) : (l ++ r).dropWhile p = r.dropWhile p := by
  induction l with
  | nil => simp
  | cons a as ih =>
    rw [List.cons_append, List.dropWhile_cons, if_pos (h a (List.mem_cons_self a as))]
    exact ih (fun x hx => h x (List.mem_cons_of_mem a hx))

theorem matchAssignment_reduce (line : List Char) (c : Char) (cs : List Char)
    (hd : line.dropWhile isPySpace = c :: cs) :
    matchAssignment line =
      if isKeyStart c then
        (match aStar cs with
         | some p => some (line.takeWhile isPySpace, c :: p.1, p.2)
         | none => none)
      else none := by
  unfold matchAssignment
  rw [hd]

theorem matchAssignment_mk (indent : List Char) (c : Char) (ks B rv : List Char)
    (hi : ∀ x ∈ indent, isPySpace x = true) (hc : isKeyStart c = true)
    (has : ∃ as bs, (∀ a ∈ as, isKeyChar a = true) ∧ ValidQ bs ∧ ks = as ++ flatQ bs)
    (hB : ∃ d B', B = d :: B' ∧ isKeyChar d = false ∧ d ≠ '.')
    (hEq : eqThenValue B = some rv) :
    matchAssignment (indent ++ c :: (ks ++ B)) = some (indent, c :: ks, rv) := by
  obtain ⟨as, bs, hask, hbs, hks⟩ := has
  obtain ⟨d, B', hBd, hdk, hdd⟩ := hB
  have hcS : isPySpace c = false := isKeyStart_not_space hc
  have hdrop : (indent ++ c :: (ks ++ B)).dropWhile isPySpace = c :: (ks ++ B) := by
    rw [dropWhile_append_all _ hi, List.dropWhile_cons, if_neg (by simp [hcS])]
  have htake : (indent ++ c :: (ks ++ B)).takeWhile isPySpace = indent := by
    rw [takeWhile_append_all _ hi, List.takeWhile_cons, if_neg (by simp [hcS])]
    simp
  have hstar : aStar (ks ++ B) = some (ks, rv) := by
    rw [hks, List.append_assoc]
    exact aStar_flatQ B rv ⟨d, B', hBd, hdk, hdd⟩ hEq as bs hask hbs
  rw [matchAssignment_reduce _ c (ks ++ B) hdrop, if_pos hc, hstar, htake]

theorem redactedValue_form (cfg : Config) (v : List Char) :
    ∃ q, (q = '"' ∨ q = '\'') ∧ redactedValue cfg v = q :: (cfg.redaction_text ++ [q]) := by
  unfold redactedValue
  split
  · exact ⟨'"', Or.inl rfl, rfl⟩
  · split
    · exact ⟨'\'', Or.inr rfl, rfl⟩
    · exact ⟨'"', Or.inl rfl, rfl⟩

theorem dropWhile_eq_self_of_head {p : Char → Bool} {l : List Char}
    (h : ∀ c, l.head? = some c → p c = false) : l.dropWhile p = l := by
  cases l with
  | nil => rfl
  | cons a as =>
    rw [List.dropWhile_cons, if_neg (by simp [h a rfl])]

theorem pyStrip_eq_self {l : List Char}
    (h1 : ∀ c, l.head? = some c → isPySpace c = false)
    (h2 : ∀ c, l.getLast? = some c → isPySpace c = false) : pyStrip l = l := by
  unfold pyStrip
  rw [dropWhile_eq_self_of_head h1,
    dropWhile_eq_self_of_head (fun c hc => h2 c (by rw [← List.head?_reverse]; exact hc)),
    List.reverse_reverse]

theorem redactedValue_idem (cfg : Config) (v : List Char) :
    redactedValue cfg (redactedValue cfg v) = redactedValue cfg v := by
  obtain ⟨q, hq, hrv⟩ := redactedValue_form cfg v
  rw [hrv]
  have hqs : isPySpace q = false := by rcases hq with rfl | rfl <;> decide
  have hhead : (q :: (cfg.redaction_text ++ [q])).head? = some q := rfl
  have hlast : (q :: (cfg.redaction_text ++ [q])).getLast? = some q := by
    rw [show q :: (cfg.redaction_text ++ [q]) = (q :: cfg.redaction_text) ++ [q] from by simp,
      List.getLast?_concat]
  have hstrip : pyStrip (q :: (cfg.redaction_text ++ [q])) = q :: (cfg.redaction_text ++ [q]) := by
    apply pyStrip_eq_self
    · intro c hc
      rw [hhead] at hc
      injection hc with hc
      subst hc
      exact hqs
    · intro c hc
      rw [hlast] at hc
      injection hc with hc
      subst hc
      exact hqs
  unfold redactedValue
  rw [hstrip]
  split
  next hcond =>
    rcases hq with rfl | rfl
    · rfl
    · exact absurd (hhead.symm.trans hcond.1) (by decide)
  next hcond =>
    split
    next hcond2 =>
      rcases hq with rfl | rfl
      · exact absurd (hhead.symm.trans hcond2.1) (by decide)
      · rfl
    next hcond2 =>
      rcases hq with rfl | rfl
      · exact absurd ⟨hhead, hlast⟩ hcond
      · exact absurd ⟨hhead, hlast⟩ hcond2

theorem dotPlusDollar_concat_nl (u : List Char) (hne : u ≠ []) (hnl : '\n' ∉ u) :
    dotPlusDollar (u ++ ['\n']) = some u := by
  have he : u.isEmpty = false := by
    cases u with
    | nil => exact absurd rfl hne
    | cons a as => rfl
  have hc : u.contains '\n' = false := by
    by_contra hcc
    rw [Bool.not_eq_false] at hcc
    exact hnl (List.elem_iff.mp hcc)
  unfold dotPlusDollar
  rw [if_neg (by simp), if_pos (List.getLast?_concat u), List.dropLast_concat,
    if_pos (by rw [he, hc]; rfl)]

theorem eqThenValue_boundary (rv : List Char) (hne : rv ≠ [])
    (hhead : ∀ c, rv.head? = some c → isPySpace c = false)
    (hnl : '\n' ∉ rv) :
    eqThenValue (' ' :: '=' :: ' ' :: (rv ++ ['\n'])) = some rv := by
  unfold eqThenValue
  rw [show (' ' :: '=' :: ' ' :: (rv ++ ['\n'])).dropWhile isPySpace
      = '=' :: ' ' :: (rv ++ ['\n']) from by
    rw [List.dropWhile_cons, if_pos (by decide), List.dropWhile_cons, if_neg (by decide)]]
  show spacesThenValue (' ' :: (rv ++ ['\n'])) = some rv
  have hmain : spacesThenValue (rv ++ ['\n']) = some rv := by
    cases rv with
    | nil => exact absurd rfl hne
    | cons a rest =>
      have haS : isPySpace a = false := hhead a rfl
      rw [List.cons_append, spacesThenValue_cons, if_neg (by simp [haS]),
        ← List.cons_append, dotPlusDollar_concat_nl (a :: rest) (List.cons_ne_nil a rest) hnl]
  rw [spacesThenValue_cons, if_pos (by decide), hmain]

/-- C2 (amended): running the engine again on its own redacted output with
the same configuration (whose placeholder text contains no newline) emits
every line byte-identically — the once-redacted output is a fixpoint of
`redact_line` — although a redacted line whose key is still classified
sensitive is redacted (and counted) again, so the second pass's redaction
count need not stay zero. -/
theorem redact_fixpoint (cfg : Config) (hrt : '\n' ∉ cfg.redaction_text)
    (st st' : RState) (line : List Char) (n n' : Nat) :
    (redact_line cfg st' ((redact_line cfg st line n).1) n').1 =
      (redact_line cfg st line n).1 := by
  by_cases hb : line.dropWhile isPySpace = []
  · rw [redact_line_blank cfg st line n hb]
    show (redact_line cfg st' line n').1 = line
    rw [redact_line_blank cfg st' line n' hb]
  · by_cases hcm : (line.dropWhile isPySpace).head? = some '#'
    · rw [redact_line_comment cfg st line n hcm]
      cases hrc : cfg.remove_comments
      · simp only [Bool.false_eq_true, if_false]
        show (redact_line cfg st' line n').1 = line
        have h2 := redact_line_comment cfg st' line n' hcm
        rw [hrc] at h2
        simp only [Bool.false_eq_true, if_false] at h2
        rw [h2]
      · simp only [if_true]
        show (redact_line cfg st' [] n').1 = []
        rw [redact_line_blank cfg st' [] n' rfl]
    · cases hm : matchAssignment line with
      | none =>
        rw [redact_line_nomatch cfg st line n hb hcm hm]
        show (redact_line cfg st' line n').1 = line
        rw [redact_line_nomatch cfg st' line n' hb hcm hm]
      | some t =>
        obtain ⟨i, k, v⟩ := t
        rw [redact_line_assign cfg st line n i k v hm]
        by_cases hs : (is_sensitive_key k || is_sensitive_value cfg v) = true
        · rw [if_pos hs]
          obtain ⟨q, hq, hrv⟩ := redactedValue_form cfg v
          have hqS : isPySpace q = false := by rcases hq with rfl | rfl <;> decide
          have hrvne : redactedValue cfg v ≠ [] := by
            rw [hrv]
            exact List.cons_ne_nil _ _
          have hrvnl : '\n' ∉ redactedValue cfg v := by
            rw [hrv]
            intro hmem
            rcases List.mem_cons.mp hmem with hq1 | hmem1
            · rcases hq with rfl | rfl <;> exact absurd hq1 (by decide)
            · rcases List.mem_append.mp hmem1 with h1 | h1
              · exact hrt h1
              · rcases hq with rfl | rfl <;> exact absurd (List.mem_singleton.mp h1) (by decide)
          have hrvhead : ∀ c, (redactedValue cfg v).head? = some c → isPySpace c = false := by
            intro c hcz
            rw [hrv, List.head?_cons] at hcz
            injection hcz with hcz
            subst hcz
            exact hqS
          have hEqB : eqThenValue (' ' :: '=' :: ' ' :: (redactedValue cfg v ++ ['\n']))
              = some (redactedValue cfg v) :=
            eqThenValue_boundary _ hrvne hrvhead hrvnl
          obtain ⟨c, cs, p, hd, hks, hi, ha, hk, hv⟩ := matchAssignment_strip hm
          have hiw : ∀ x ∈ i, isPySpace x = true := by
            rw [hi]
            intro x hx
            exact List.mem_takeWhile_imp hx
          obtain ⟨as, bs, hask, hbs, hp1⟩ := aStar_shape cs p.1 p.2 (by rw [ha])
          have hout : i ++ k ++ (' ' :: '=' :: ' ' :: redactedValue cfg v) ++ ['\n']
              = i ++ c :: (p.1 ++ (' ' :: '=' :: ' ' :: (redactedValue cfg v ++ ['\n']))) := by
            rw [hk]
            simp [List.append_assoc]
          have hm2 : matchAssignment (i ++ k ++ (' ' :: '=' :: ' ' :: redactedValue cfg v) ++ ['\n'])
              = some (i, k, redactedValue cfg v) := by
            rw [hout, hk]
            exact matchAssignment_mk i c p.1 _ (redactedValue cfg v) hiw hks
              ⟨as, bs, hask, hbs, hp1⟩
              ⟨' ', '=' :: ' ' :: (redactedValue cfg v ++ ['\n']), rfl, by decide, by decide⟩
              hEqB
          show (redact_line cfg st'
              (i ++ k ++ (' ' :: '=' :: ' ' :: redactedValue cfg v) ++ ['\n']) n').1
            = i ++ k ++ (' ' :: '=' :: ' ' :: redactedValue cfg v) ++ ['\n']
          rw [redact_line_assign cfg st' _ n' i k (redactedValue cfg v) hm2]
          by_cases hs2 : (is_sensitive_key k || is_sensitive_value cfg (redactedValue cfg v)) = true
          · rw [if_pos hs2]
            show i ++ k ++ (' ' :: '=' :: ' ' :: redactedValue cfg (redactedValue cfg v)) ++ ['\n']
              = i ++ k ++ (' ' :: '=' :: ' ' :: redactedValue cfg v) ++ ['\n']
            rw [redactedValue_idem]
          · rw [if_neg hs2]
        · rw [if_neg hs]
          show (redact_line cfg st' line n').1 = line
          have h2 := redact_line_assign cfg st' line n' i k v hm
          rw [if_neg hs] at h2
          rw [h2]

theorem redact_fixpoint_witness :
    (redact_line defaultConfig ⟨0, ∅⟩
        ((redact_line defaultConfig ⟨0, ∅⟩ ("token = abc123\n".data) 1).1) 1).1 =
      (redact_line defaultConfig ⟨0, ∅⟩ ("token = abc123\n".data) 1).1 :=
  redact_fixpoint defaultConfig (by decide) ⟨0, ∅⟩ ⟨0, ∅⟩ ("token = abc123\n".data) 1 1
